import Mathlib

set_option maxHeartbeats 1000000

/-!
Verification of the tree-to-S-expression transformation in
`src/main.rs` (functions `to_sexp`, `construct_list`, `dump_sexp`).

The shallow embedding models:
- the `SExp` enum directly, with `Value` holding the verbatim bytes of the
  extracted source substring;
- the tree-sitter tree as an inductive `Node` carrying exactly the data the
  code reads through the cursor (`is_named`, `field_name`, `kind`,
  `start_byte`, `end_byte`, children);
- the tree-sitter `TreeCursor` as a zipper (`Cursor`), with the three
  navigation operations used by the code;
- fallible substring extraction (`&source_code[start..end]` plus
  `str::from_utf8(..).expect(..)`) as an `Option`, where `none` is the panic;
- the `loop` bodies of `to_sexp` and `dump_sexp` as step functions on explicit
  loop states, iterated by a fuel-indexed runner whose fuel is a proven-
  sufficient bound (`stateMeasure`), together with a well-founded fixpoint
  (`to_sexp_loop`) used for reasoning.
-/

/-- The `SExp` enum from src/main.rs. `Value` holds the verbatim UTF-8 bytes
of the extracted source substring (Rust holds them as a `String`; the byte
sequence is identical). -/
inductive SExp : Type where
  | Kind : String → SExp
  | Field : String → SExp
  | Value : List Nat → SExp
  | List : List SExp → SExp
  | Token : String → SExp

/-- A concrete syntax tree node carrying exactly the data `to_sexp` and
`dump_sexp` read through the cursor: the `is_named` flag, the optional field
name reported by `cursor.field_name()` at this node, the kind name, the
start/end byte offsets, and the child list. -/
inductive Node : Type where
  | mk : Bool → Option String → String → Nat → Nat → List Node → Node

def Node.is_named : Node → Bool
  | .mk b _ _ _ _ _ => b

def Node.field_name : Node → Option String
  | .mk _ f _ _ _ _ => f

def Node.kind : Node → String
  | .mk _ _ k _ _ _ => k

def Node.start_byte : Node → Nat
  | .mk _ _ _ sb _ _ => sb

def Node.end_byte : Node → Nat
  | .mk _ _ _ _ eb _ => eb

def Node.children : Node → List Node
  | .mk _ _ _ _ _ cs => cs

mutual

def Node.size : Node → Nat
  | .mk _ _ _ _ _ cs => 1 + sizeList cs

def sizeList : List Node → Nat
  | [] => 0
  | c :: cs => Node.size c + sizeList cs

end

/-- The byte subrange `source[s..e]` taken by the Rust slice
`&source_code[start..end]` (meaningful when `s ≤ e ≤ source.length`). -/
def sliceRange (source : List Nat) (s e : Nat) : List Nat :=
  (source.drop s).take (e - s)

/-- UTF-8 continuation byte test. -/
def isCont (b : Nat) : Bool := decide (0x80 ≤ b ∧ b ≤ 0xBF)

/-- RFC 3629 UTF-8 validity of a byte sequence, the check performed by Rust's
`str::from_utf8`. -/
def validUtf8 : List Nat → Bool
  | [] => true
  | b :: rest =>
    if b ≤ 0x7F then validUtf8 rest
    else if 0xC2 ≤ b ∧ b ≤ 0xDF then
      match rest with
      | b1 :: r => isCont b1 && validUtf8 r
      | [] => false
    else if b = 0xE0 then
      match rest with
      | b1 :: b2 :: r => decide (0xA0 ≤ b1 ∧ b1 ≤ 0xBF) && isCont b2 && validUtf8 r
      | _ => false
    else if (0xE1 ≤ b ∧ b ≤ 0xEC) ∨ b = 0xEE ∨ b = 0xEF then
      match rest with
      | b1 :: b2 :: r => isCont b1 && isCont b2 && validUtf8 r
      | _ => false
    else if b = 0xED then
      match rest with
      | b1 :: b2 :: r => decide (0x80 ≤ b1 ∧ b1 ≤ 0x9F) && isCont b2 && validUtf8 r
      | _ => false
    else if b = 0xF0 then
      match rest with
      | b1 :: b2 :: b3 :: r =>
        decide (0x90 ≤ b1 ∧ b1 ≤ 0xBF) && isCont b2 && isCont b3 && validUtf8 r
      | _ => false
    else if 0xF1 ≤ b ∧ b ≤ 0xF3 then
      match rest with
      | b1 :: b2 :: b3 :: r => isCont b1 && isCont b2 && isCont b3 && validUtf8 r
      | _ => false
    else if b = 0xF4 then
      match rest with
      | b1 :: b2 :: b3 :: r =>
        decide (0x80 ≤ b1 ∧ b1 ≤ 0x8F) && isCont b2 && isCont b3 && validUtf8 r
      | _ => false
    else false

/-- Models the leaf text extraction of src/main.rs lines 58-62: the slice
`&source_code[start..end]` panics unless `start ≤ end ≤ source.length`, and
`str::from_utf8(..).expect("has a string")` panics unless the slice is valid
UTF-8; `none` models the panic. On success the produced `String` holds
exactly the slice's bytes. -/
def decodeSlice (source : List Nat) (s e : Nat) : Option (List Nat) :=
  if s ≤ e ∧ e ≤ source.length then
    if validUtf8 (sliceRange source s e) then some (sliceRange source s e) else none
  else none

/-- The test `elem == SExp::Token("(".to_string())` from `construct_list`
(derived `PartialEq` is structural equality). -/
def SExp.isOpenToken : SExp → Bool
  | .Token s => decide (s = "(")
  | _ => false

/-- The `while let Some(elem) = exp_stack.pop()` loop of `construct_list`
(src/main.rs lines 73-88). The stack list has its head as the top; `elems`
is kept in Rust `Vec` order (first-popped element first), so a push is an
append. On the delimiter, a single accumulated element is pushed unchanged
(`exp_stack.push(elems[0].clone())`) and otherwise the accumulated elements
are reversed and wrapped (`elems.reverse(); exp_stack.push(SExp::List(elems))`).
If the stack runs out without a delimiter the loop simply ends (with the
stack empty and `elems` discarded). -/
def construct_list_go : List SExp → List SExp → List SExp
  | [], _ => []
  | e :: rest, elems =>
    if SExp.isOpenToken e then
      match elems with
      | [x] => x :: rest
      | _ => SExp.List elems.reverse :: rest
    else construct_list_go rest (elems ++ [e])

/-- `construct_list` from src/main.rs lines 73-88. -/
def construct_list (exp_stack : List SExp) : List SExp :=
  construct_list_go exp_stack []

/-- One saved ancestor level of the cursor: the parent node and the
not-yet-visited right siblings of the position below it. -/
structure Frame where
  parent : Node
  rights : List Node

/-- A tree-sitter `TreeCursor` over an already-built tree: the current node
plus the stack of ancestor frames (empty exactly at the root). -/
structure Cursor where
  node : Node
  frames : List Frame

/-- `cursor.goto_first_child()`; `none` models the `false` return. -/
def goto_first_child (c : Cursor) : Option Cursor :=
  match c.node.children with
  | [] => none
  | ch :: rest => some ⟨ch, ⟨c.node, rest⟩ :: c.frames⟩

/-- `cursor.goto_next_sibling()`; `none` models the `false` return. -/
def goto_next_sibling (c : Cursor) : Option Cursor :=
  match c.frames with
  | [] => none
  | f :: fs =>
    match f.rights with
    | [] => none
    | s :: ss => some ⟨s, ⟨f.parent, ss⟩ :: fs⟩

/-- `cursor.goto_parent()`; `none` models the `false` return. -/
def goto_parent (c : Cursor) : Option Cursor :=
  match c.frames with
  | [] => none
  | f :: fs => some ⟨f.parent, fs⟩

/-- The mutable state of the `to_sexp` loop: the cursor, the
`is_children_visited` flag, and the `incomplete` stack (head = top). -/
structure LoopState where
  cursor : Cursor
  is_children_visited : Bool
  incomplete : List SExp

inductive StepOutcome where
  | next (s : LoopState)
  | done (stack : List SExp)
  | failed

/-- `if let Some(field_name) = cursor.field_name() { incomplete.push(SExp::Field(..)) }`. -/
def pushField (n : Node) (st : List SExp) : List SExp :=
  match n.field_name with
  | some f => SExp.Field f :: st
  | none => st

/-- One iteration of the `loop` in `to_sexp` (src/main.rs lines 29-65).
`failed` models the `expect("has a string")` panic on a bad byte range. -/
def to_sexp_step (source : List Nat) (s : LoopState) : StepOutcome :=
  if s.is_children_visited then
    let incomplete :=
      if s.cursor.node.is_named then construct_list s.incomplete else s.incomplete
    match goto_next_sibling s.cursor with
    | some c => .next ⟨c, false, incomplete⟩
    | none =>
      match goto_parent s.cursor with
      | some c => .next ⟨c, true, incomplete⟩
      | none => .done incomplete
  else
    let incomplete :=
      if s.cursor.node.is_named then
        SExp.Kind s.cursor.node.kind :: SExp.Token "(" :: pushField s.cursor.node s.incomplete
      else s.incomplete
    match goto_first_child s.cursor with
    | some c => .next ⟨c, false, incomplete⟩
    | none =>
      match decodeSlice source s.cursor.node.start_byte s.cursor.node.end_byte with
      | some v => .next ⟨s.cursor, true, SExp.Value v :: incomplete⟩
      | none => .failed

/-- Weight of the pending ancestor frames: one ascent step per frame plus two
steps per node in each frame's remaining right siblings. -/
def framesWeight (fs : List Frame) : Nat :=
  (fs.map (fun f => 1 + 2 * sizeList f.rights)).sum

/-- Loop variant: an upper bound on the remaining number of iterations. -/
def stateMeasure (s : LoopState) : Nat :=
  (if s.is_children_visited then 1 else 2 * Node.size s.cursor.node) +
    framesWeight s.cursor.frames

theorem size_pos (n : Node) : 1 ≤ Node.size n := by
  cases n with
  | mk b f k sb eb cs =>
    show 1 ≤ 1 + sizeList cs
    omega

theorem step_decreases (source : List Nat) (s s2 : LoopState)
    (h : to_sexp_step source s = StepOutcome.next s2) :
    stateMeasure s2 < stateMeasure s := by
  obtain ⟨⟨n, fs⟩, visited, st⟩ := s
  unfold to_sexp_step at h
  cases visited with
  | true =>
    simp only [goto_next_sibling, goto_parent] at h
    match fs with
    | [] =>
      simp only at h
      cases h
    | ⟨p, []⟩ :: fs2 =>
      simp only at h
      cases h
      simp [stateMeasure, framesWeight, sizeList]
    | ⟨p, s1 :: ss⟩ :: fs2 =>
      simp only at h
      cases h
      have h1 := size_pos s1
      simp [stateMeasure, framesWeight, sizeList]
      omega
  | false =>
    obtain ⟨b, f, k, sb, eb, cs⟩ := n
    simp only [goto_first_child, Node.children] at h
    cases cs with
    | nil =>
      simp only at h
      cases hd : decodeSlice source (Node.mk b f k sb eb []).start_byte
          (Node.mk b f k sb eb []).end_byte with
      | none => rw [hd] at h; cases h
      | some v =>
        rw [hd] at h
        cases h
        simp [stateMeasure, Node.size, sizeList]
    | cons ch rest =>
      simp only at h
      cases h
      have h1 := size_pos ch
      simp [stateMeasure, framesWeight, Node.size, sizeList]
      omega

/-- Fuel-indexed iteration of the `to_sexp` loop body. The outer `none`
means the fuel ran out; `some none` is the panic; `some (some st)` is a
normal exit of the loop with final stack `st`. -/
def to_sexp_go (source : List Nat) : Nat → LoopState → Option (Option (List SExp))
  | 0, _ => none
  | fuel + 1, s =>
    match to_sexp_step source s with
    | .next s2 => to_sexp_go source fuel s2
    | .done st => some (some st)
    | .failed => some none

/-- The return expression of `to_sexp` (src/main.rs lines 66-70): a single
remaining stack entry is returned directly, otherwise the whole stack is
wrapped in a `List` (in `Vec` order, i.e. bottom of the stack first). -/
def finalize (st : List SExp) : SExp :=
  match st.reverse with
  | [x] => x
  | l => SExp.List l

/-- The initial loop state of `to_sexp`: cursor at the root,
`is_children_visited = false`, empty `incomplete` stack. -/
def initState (tree : Node) : LoopState :=
  ⟨⟨tree, []⟩, false, []⟩

/-- `to_sexp` from src/main.rs: run the traversal loop to completion and
apply the final single-element unwrap. The loop is iterated with fuel
`stateMeasure`, which `to_sexp_go_terminates` proves is always sufficient,
so the fuel-exhaustion branch is unreachable; `none` is the byte-range
panic. -/
def to_sexp (source : List Nat) (tree : Node) : Option SExp :=
  match to_sexp_go source (stateMeasure (initState tree)) (initState tree) with
  | some (some st) => some (finalize st)
  | _ => none

/-- The `to_sexp` loop as a well-founded fixpoint (equal to the fuel runner,
see `to_sexp_go_eq_loop`); convenient for equational reasoning. -/
def to_sexp_loop (source : List Nat) (s : LoopState) : Option (List SExp) :=
  match hstep : to_sexp_step source s with
  | StepOutcome.next s2 => to_sexp_loop source s2
  | StepOutcome.done st => some st
  | StepOutcome.failed => none
termination_by stateMeasure s
decreasing_by exact step_decreases source s s2 hstep

theorem to_sexp_loop_next (source : List Nat) (s s2 : LoopState)
    (h : to_sexp_step source s = StepOutcome.next s2) :
    to_sexp_loop source s = to_sexp_loop source s2 := by
  rw [to_sexp_loop]
  split
  · rename_i s3 h3
    rw [h] at h3
    cases h3
    rfl
  · rename_i st h3
    rw [h] at h3
    cases h3
  · rename_i h3
    rw [h] at h3
    cases h3

theorem to_sexp_loop_done (source : List Nat) (s : LoopState) (st : List SExp)
    (h : to_sexp_step source s = StepOutcome.done st) :
    to_sexp_loop source s = some st := by
  rw [to_sexp_loop]
  split
  · rename_i s3 h3
    rw [h] at h3
    cases h3
  · rename_i st2 h3
    rw [h] at h3
    cases h3
    rfl
  · rename_i h3
    rw [h] at h3
    cases h3

theorem to_sexp_loop_failed (source : List Nat) (s : LoopState)
    (h : to_sexp_step source s = StepOutcome.failed) :
    to_sexp_loop source s = none := by
  rw [to_sexp_loop]
  split
  · rename_i s3 h3
    rw [h] at h3
    cases h3
  · rename_i st2 h3
    rw [h] at h3
    cases h3
  · rfl

theorem to_sexp_go_succ (source : List Nat) (fuel : Nat) (s : LoopState) :
    to_sexp_go source (fuel + 1) s =
      match to_sexp_step source s with
      | StepOutcome.next s2 => to_sexp_go source fuel s2
      | StepOutcome.done st => some (some st)
      | StepOutcome.failed => some none := rfl

/-- With at least `stateMeasure s` fuel the fuel runner never exhausts its
fuel and computes exactly the well-founded loop. -/
theorem to_sexp_go_eq_loop (source : List Nat) (fuel : Nat) (s : LoopState)
    (h : stateMeasure s ≤ fuel) :
    to_sexp_go source fuel s = some (to_sexp_loop source s) := by
  induction fuel generalizing s with
  | zero =>
    have h1 : 1 ≤ stateMeasure s := by
      unfold stateMeasure
      have := size_pos s.cursor.node
      split <;> omega
    omega
  | succ fuel ih =>
    rw [to_sexp_go_succ]
    cases hstep : to_sexp_step source s with
    | next s2 =>
      have hd := step_decreases source s s2 hstep
      rw [to_sexp_loop_next source s s2 hstep]
      exact ih s2 (by omega)
    | done st =>
      rw [to_sexp_loop_done source s st hstep]
    | failed =>
      rw [to_sexp_loop_failed source s hstep]

/-- C9: for every finite tree and cursor state, the `to_sexp` traversal
loop terminates: iterating the loop body (`to_sexp_step`, in which every
iteration either descends to a first child, moves to a next sibling,
ascends to the parent, or — when moving to the parent fails at the root —
exits) reaches a terminal outcome (normal exit or panic) within
`stateMeasure s` iterations, so the fuel runner never exhausts its fuel. -/
theorem to_sexp_loop_terminates (source : List Nat) (s : LoopState) :
    (to_sexp_go source (stateMeasure s) s).isSome = true := by
  rw [to_sexp_go_eq_loop source (stateMeasure s) s le_rfl]
  rfl

/-- `to_sexp` expressed through the well-founded loop. -/
theorem to_sexp_eq_loop (source : List Nat) (tree : Node) :
    to_sexp source tree = (to_sexp_loop source (initState tree)).map finalize := by
  unfold to_sexp
  rw [to_sexp_go_eq_loop source (stateMeasure (initState tree)) (initState tree) le_rfl]
  cases to_sexp_loop source (initState tree) with
  | none => rfl
  | some st => rfl

/-- The collapse rule of `construct_list`: a single element is pushed
unchanged, any other number of elements is wrapped in a `List` (here given
the accumulated elements already in original bottom-to-top order). -/
def listOrSingle (l : List SExp) : SExp :=
  match l with
  | [x] => x
  | _ => SExp.List l

/-- The optional `Field` entry contributed by a named node. -/
def fieldPre (n : Node) : List SExp :=
  match n.field_name with
  | some f => [SExp.Field f]
  | none => []

mutual

/-- Denotation of the traversal: the net sequence of entries (in bottom-to-
top stack order) that traversing the subtree of `n` leaves on the
`incomplete` stack, with `none` for the byte-range panic. A named node
leaves its optional `Field` entry followed by the collapsed entry
`listOrSingle (Kind :: children entries)`; an unnamed node leaves its
children's entries (or its `Value` when it is a leaf). Proven to match the
loop in `to_sexp_loop_desc_spec`. -/
def subtreeEntries (source : List Nat) : Node → Option (List SExp)
  | Node.mk nm f k sb eb [] =>
    match decodeSlice source sb eb with
    | none => none
    | some v =>
      if nm then
        some (fieldPre (Node.mk nm f k sb eb []) ++
          [listOrSingle [SExp.Kind k, SExp.Value v]])
      else some [SExp.Value v]
  | Node.mk nm f k sb eb (c :: cs) =>
    match childrenEntries source (c :: cs) with
    | none => none
    | some es =>
      if nm then
        some (fieldPre (Node.mk nm f k sb eb (c :: cs)) ++
          [listOrSingle (SExp.Kind k :: es)])
      else some es

/-- Concatenated subtree entries of a list of sibling nodes, left to right. -/
def childrenEntries (source : List Nat) : List Node → Option (List SExp)
  | [] => some []
  | c :: cs =>
    match subtreeEntries source c, childrenEntries source cs with
    | some e, some es => some (e ++ es)
    | _, _ => none

end

/-- Mutual structural induction for `Node` and lists of nodes, via strong
induction on `Node.size`. -/
theorem node_mutual_ind (P : Node → Prop) (Q : List Node → Prop)
    (hmk : ∀ nm f k sb eb cs, Q cs → P (Node.mk nm f k sb eb cs))
    (hnil : Q [])
    (hcons : ∀ c cs, P c → Q cs → Q (c :: cs)) :
    (∀ n, P n) ∧ (∀ l, Q l) := by
  have key : ∀ bound : Nat, (∀ n, Node.size n ≤ bound → P n) ∧
      (∀ l, sizeList l ≤ bound → Q l) := by
    intro bound
    induction bound with
    | zero =>
      constructor
      · intro n hn
        exact absurd hn (by have := size_pos n; omega)
      · intro l hl
        cases l with
        | nil => exact hnil
        | cons c cs =>
          have h1 := size_pos c
          have h2 : sizeList (c :: cs) = Node.size c + sizeList cs := rfl
          omega
    | succ bound ih =>
      have hsub : ∀ n, Node.size n ≤ bound + 1 → P n := by
        intro n hn
        cases n with
        | mk nm f k sb eb cs =>
          apply hmk
          apply ih.2
          have h2 : Node.size (Node.mk nm f k sb eb cs) = 1 + sizeList cs := rfl
          omega
      constructor
      · exact hsub
      · intro l
        induction l with
        | nil => intro _; exact hnil
        | cons c cs ihl =>
          intro hl
          have h2 : sizeList (c :: cs) = Node.size c + sizeList cs := rfl
          have h1 := size_pos c
          exact hcons c cs (hsub c (by omega)) (ihl (by omega))
  constructor
  · intro n
    exact (key (Node.size n)).1 n le_rfl
  · intro l
    exact (key (sizeList l)).2 l le_rfl

theorem pushField_eq (n : Node) (st : List SExp) :
    pushField n st = fieldPre n ++ st := by
  unfold pushField fieldPre
  cases n.field_name <;> simp

theorem fieldPre_entry_reverse (n : Node) (x : SExp) (st : List SExp) :
    (fieldPre n ++ [x]).reverse ++ st = x :: pushField n st := by
  rw [pushField_eq]
  unfold fieldPre
  cases n.field_name <;> simp

theorem listOrSingle_of_ne_one (l : List SExp) (h : l.length ≠ 1) :
    listOrSingle l = SExp.List l := by
  match l with
  | [] => rfl
  | [x] => exact absurd rfl h
  | x :: y :: zs => rfl

/-- Behaviour of the `construct_list` pop loop over a delimiter-free region:
it accumulates the whole region into `elems` and, on reaching the delimiter,
pushes the single accumulated element or the reversed wrapped list. -/
theorem construct_list_go_region (region : List SExp) :
    ∀ (st2 elems : List SExp), (∀ e ∈ region, SExp.isOpenToken e = false) →
    construct_list_go (region ++ SExp.Token "(" :: st2) elems =
      listOrSingle (elems ++ region).reverse :: st2 := by
  induction region with
  | nil =>
    intro st2 elems _
    simp only [List.nil_append, List.append_nil]
    show construct_list_go (SExp.Token "(" :: st2) elems = listOrSingle elems.reverse :: st2
    unfold construct_list_go
    rw [if_pos (by simp [SExp.isOpenToken])]
    match elems with
    | [] => rfl
    | [x] => rfl
    | x :: y :: zs =>
      rw [listOrSingle_of_ne_one (x :: y :: zs).reverse (by simp)]
  | cons e region2 ih =>
    intro st2 elems h
    have he : SExp.isOpenToken e = false := h e (by simp)
    show construct_list_go (e :: (region2 ++ SExp.Token "(" :: st2)) elems = _
    unfold construct_list_go
    rw [if_neg (by simp [he])]
    rw [ih st2 (elems ++ [e]) (fun x hx => h x (by simp [hx]))]
    simp

/-- `construct_list` on a stack whose top region (above the topmost
delimiter) contains no delimiter: the region is replaced by its collapse. -/
theorem construct_list_region (region st2 : List SExp)
    (h : ∀ e ∈ region, SExp.isOpenToken e = false) :
    construct_list (region ++ SExp.Token "(" :: st2) =
      listOrSingle region.reverse :: st2 := by
  unfold construct_list
  rw [construct_list_go_region region st2 [] h]
  simp

theorem isOpenToken_listOrSingle_kind (k : String) (es : List SExp) :
    SExp.isOpenToken (listOrSingle (SExp.Kind k :: es)) = false := by
  cases es <;> rfl

/-- Entries produced by the traversal denotation are never the stack
delimiter. -/
theorem entries_noOpen (source : List Nat) :
    (∀ n, ∀ es, subtreeEntries source n = some es →
      ∀ e ∈ es, SExp.isOpenToken e = false) ∧
    (∀ l, ∀ es, childrenEntries source l = some es →
      ∀ e ∈ es, SExp.isOpenToken e = false) := by
  apply node_mutual_ind
  · intro nm f k sb eb cs hQ es hes e he
    cases cs with
    | nil =>
      unfold subtreeEntries at hes
      cases hd : decodeSlice source sb eb with
      | none => rw [hd] at hes; cases hes
      | some v =>
        rw [hd] at hes
        cases nm with
        | true =>
          simp only [if_pos] at hes
          cases hes
          rcases List.mem_append.mp he with hm | hm
          · unfold fieldPre at hm
            cases hf : Node.field_name (Node.mk true f k sb eb []) with
            | none => rw [hf] at hm; cases hm
            | some g =>
              rw [hf] at hm
              simp at hm
              subst hm
              rfl
          · simp at hm
            subst hm
            rfl
        | false =>
          simp only [if_neg] at hes
          cases hes
          simp at he
          subst he
          rfl
    | cons c cs2 =>
      unfold subtreeEntries at hes
      cases hce : childrenEntries source (c :: cs2) with
      | none => rw [hce] at hes; cases hes
      | some ces =>
        rw [hce] at hes
        cases nm with
        | true =>
          simp only [if_pos] at hes
          cases hes
          rcases List.mem_append.mp he with hm | hm
          · unfold fieldPre at hm
            cases hf : Node.field_name (Node.mk true f k sb eb (c :: cs2)) with
            | none => rw [hf] at hm; cases hm
            | some g =>
              rw [hf] at hm
              simp at hm
              subst hm
              rfl
          · simp at hm
            subst hm
            exact isOpenToken_listOrSingle_kind k ces
        | false =>
          simp only [if_neg] at hes
          cases hes
          exact hQ _ hce e he
  · intro es hes e he
    unfold childrenEntries at hes
    cases hes
    cases he
  · intro c cs hP hQ es hes e he
    unfold childrenEntries at hes
    cases hsc : subtreeEntries source c with
    | none => rw [hsc] at hes; cases hes
    | some e1 =>
      rw [hsc] at hes
      cases hcc : childrenEntries source cs with
      | none => rw [hcc] at hes; cases hes
      | some es2 =>
        rw [hcc] at hes
        cases hes
        rcases List.mem_append.mp he with hm | hm
        · exact hP e1 hsc e hm
        · exact hQ es2 hcc e hm

/-- The sibling/parent move performed at the end of an ascending iteration
(src/main.rs lines 37-42). -/
def moveAfter (source : List Nat) (c : Cursor) (st : List SExp) : Option (List SExp) :=
  match goto_next_sibling c with
  | some c2 => to_sexp_loop source ⟨c2, false, st⟩
  | none =>
    match goto_parent c with
    | some c2 => to_sexp_loop source ⟨c2, true, st⟩
    | none => some st

/-- The loop run that remains once the cursor is about to visit the first of
the sibling nodes `l` under parent `p` (or, when `l` is empty, is back at
`p` in the ascending state). -/
def runChildren (source : List Nat) : List Node → Node → List Frame → List SExp →
    Option (List SExp)
  | [], p, fs, st => to_sexp_loop source ⟨⟨p, fs⟩, true, st⟩
  | c :: cs, p, fs, st => to_sexp_loop source ⟨⟨c, ⟨p, cs⟩ :: fs⟩, false, st⟩

/-- Unfolding of an ascending iteration: collapse if named, then move. -/
theorem to_sexp_loop_asc (source : List Nat) (c : Cursor) (st : List SExp) :
    to_sexp_loop source ⟨c, true, st⟩ =
      moveAfter source c (if c.node.is_named then construct_list st else st) := by
  cases hsib : goto_next_sibling c with
  | some c2 =>
    rw [to_sexp_loop_next source _ _
      (show to_sexp_step source ⟨c, true, st⟩ = StepOutcome.next
        ⟨c2, false, if c.node.is_named then construct_list st else st⟩ by
        simp [to_sexp_step, hsib])]
    simp [moveAfter, hsib]
  | none =>
    cases hpar : goto_parent c with
    | some c2 =>
      rw [to_sexp_loop_next source _ _
        (show to_sexp_step source ⟨c, true, st⟩ = StepOutcome.next
          ⟨c2, true, if c.node.is_named then construct_list st else st⟩ by
          simp [to_sexp_step, hsib, hpar])]
      simp [moveAfter, hsib, hpar]
    | none =>
      rw [to_sexp_loop_done source _ _
        (show to_sexp_step source ⟨c, true, st⟩ = StepOutcome.done
          (if c.node.is_named then construct_list st else st) by
          simp [to_sexp_step, hsib, hpar])]
      simp [moveAfter, hsib, hpar]

/-- Unfolding of a descending iteration at a leaf: push the node's entries,
extract the leaf text (or panic), switch to ascending. -/
theorem to_sexp_loop_desc_leaf (source : List Nat) (n : Node) (fs : List Frame)
    (st : List SExp) (hleaf : n.children = []) :
    to_sexp_loop source ⟨⟨n, fs⟩, false, st⟩ =
      match decodeSlice source n.start_byte n.end_byte with
      | none => none
      | some v => to_sexp_loop source ⟨⟨n, fs⟩, true, SExp.Value v ::
          (if n.is_named then
            SExp.Kind n.kind :: SExp.Token "(" :: pushField n st
          else st)⟩ := by
  cases hd : decodeSlice source n.start_byte n.end_byte with
  | none =>
    apply to_sexp_loop_failed
    simp [to_sexp_step, goto_first_child, hleaf, hd]
  | some v =>
    apply to_sexp_loop_next
    simp [to_sexp_step, goto_first_child, hleaf, hd]

/-- Unfolding of a descending iteration at an internal node: push the node's
entries and descend to the first child. -/
theorem to_sexp_loop_desc_child (source : List Nat) (n c : Node) (cs : List Node)
    (fs : List Frame) (st : List SExp) (hch : n.children = c :: cs) :
    to_sexp_loop source ⟨⟨n, fs⟩, false, st⟩ =
      to_sexp_loop source ⟨⟨c, ⟨n, cs⟩ :: fs⟩, false,
        if n.is_named then
          SExp.Kind n.kind :: SExp.Token "(" :: pushField n st
        else st⟩ := by
  apply to_sexp_loop_next
  simp [to_sexp_step, goto_first_child, hch]

/-- After finishing a child whose frame records remaining siblings `cs`, the
move step continues with those siblings (or ascends to the parent). -/
theorem moveAfter_frame (source : List Nat) (c p : Node) (cs : List Node)
    (fs : List Frame) (st : List SExp) :
    moveAfter source ⟨c, ⟨p, cs⟩ :: fs⟩ st = runChildren source cs p fs st := by
  cases cs with
  | nil => simp [moveAfter, goto_next_sibling, goto_parent, runChildren]
  | cons c2 cs2 => simp [moveAfter, goto_next_sibling, runChildren]

/-- The simulation theorem: the `to_sexp` loop computes the traversal
denotation. Descending into `n` pushes exactly `subtreeEntries n` onto the
stack (or panics exactly when the denotation does) and then performs the
sibling/parent move; the sibling run computes `childrenEntries`. -/
theorem to_sexp_loop_spec (source : List Nat) :
    (∀ n, ∀ fs st, to_sexp_loop source ⟨⟨n, fs⟩, false, st⟩ =
      (subtreeEntries source n).bind
        (fun es => moveAfter source ⟨n, fs⟩ (es.reverse ++ st))) ∧
    (∀ l, ∀ p fs st, runChildren source l p fs st =
      (childrenEntries source l).bind
        (fun es => to_sexp_loop source ⟨⟨p, fs⟩, true, es.reverse ++ st⟩)) := by
  apply node_mutual_ind
  · intro nm f k sb eb cs hQ fs st
    cases cs with
    | nil =>
      rw [to_sexp_loop_desc_leaf source (Node.mk nm f k sb eb []) fs st rfl]
      simp only [Node.start_byte, Node.end_byte]
      cases hd : decodeSlice source sb eb with
      | none =>
        unfold subtreeEntries
        rw [hd]
        rfl
      | some v =>
        show to_sexp_loop source ⟨⟨Node.mk nm f k sb eb [], fs⟩, true,
            SExp.Value v ::
              (if Node.is_named (Node.mk nm f k sb eb []) then
                SExp.Kind (Node.kind (Node.mk nm f k sb eb [])) :: SExp.Token "(" ::
                  pushField (Node.mk nm f k sb eb []) st
              else st)⟩ = _
        rw [to_sexp_loop_asc]
        unfold subtreeEntries
        rw [hd]
        cases nm with
        | true =>
          have hreg := construct_list_region [SExp.Value v, SExp.Kind k]
            (pushField (Node.mk true f k sb eb []) st)
            (by intro e he; simp at he; rcases he with rfl | rfl <;> rfl)
          simp only [List.cons_append, List.nil_append] at hreg
          show moveAfter source ⟨Node.mk true f k sb eb [], fs⟩
              (construct_list (SExp.Value v :: SExp.Kind k :: SExp.Token "(" ::
                pushField (Node.mk true f k sb eb []) st)) = _
          rw [hreg]
          show _ = moveAfter source ⟨Node.mk true f k sb eb [], fs⟩
            ((fieldPre (Node.mk true f k sb eb []) ++
              [listOrSingle [SExp.Kind k, SExp.Value v]]).reverse ++ st)
          rw [fieldPre_entry_reverse]
          rfl
        | false =>
          rfl
    | cons c cs2 =>
      rw [to_sexp_loop_desc_child source (Node.mk nm f k sb eb (c :: cs2)) c cs2 fs st rfl]
      show runChildren source (c :: cs2) (Node.mk nm f k sb eb (c :: cs2)) fs
          (if Node.is_named (Node.mk nm f k sb eb (c :: cs2)) then
            SExp.Kind (Node.kind (Node.mk nm f k sb eb (c :: cs2))) :: SExp.Token "(" ::
              pushField (Node.mk nm f k sb eb (c :: cs2)) st
          else st) = _
      rw [hQ]
      unfold subtreeEntries
      cases hce : childrenEntries source (c :: cs2) with
      | none => rfl
      | some es =>
        show to_sexp_loop source ⟨⟨Node.mk nm f k sb eb (c :: cs2), fs⟩, true,
            es.reverse ++
              (if Node.is_named (Node.mk nm f k sb eb (c :: cs2)) then
                SExp.Kind (Node.kind (Node.mk nm f k sb eb (c :: cs2))) :: SExp.Token "(" ::
                  pushField (Node.mk nm f k sb eb (c :: cs2)) st
              else st)⟩ = _
        rw [to_sexp_loop_asc]
        cases nm with
        | true =>
          have hno : ∀ e ∈ es.reverse ++ [SExp.Kind k], SExp.isOpenToken e = false := by
            intro e he
            rcases List.mem_append.mp he with hm | hm
            · exact (entries_noOpen source).2 (c :: cs2) es hce e (List.mem_reverse.mp hm)
            · simp at hm; subst hm; rfl
          have hreg := construct_list_region (es.reverse ++ [SExp.Kind k])
            (pushField (Node.mk true f k sb eb (c :: cs2)) st) hno
          show moveAfter source ⟨Node.mk true f k sb eb (c :: cs2), fs⟩
              (construct_list (es.reverse ++ (SExp.Kind k :: SExp.Token "(" ::
                pushField (Node.mk true f k sb eb (c :: cs2)) st))) = _
          rw [show es.reverse ++ (SExp.Kind k :: SExp.Token "(" ::
              pushField (Node.mk true f k sb eb (c :: cs2)) st) =
            (es.reverse ++ [SExp.Kind k]) ++ SExp.Token "(" ::
              pushField (Node.mk true f k sb eb (c :: cs2)) st by simp]
          rw [hreg]
          rw [show (es.reverse ++ [SExp.Kind k]).reverse = SExp.Kind k :: es by simp]
          show _ = moveAfter source ⟨Node.mk true f k sb eb (c :: cs2), fs⟩
            ((fieldPre (Node.mk true f k sb eb (c :: cs2)) ++
              [listOrSingle (SExp.Kind k :: es)]).reverse ++ st)
          rw [fieldPre_entry_reverse]
        | false =>
          rfl
  · intro p fs st
    rfl
  · intro c cs hP hQ p fs st
    show to_sexp_loop source ⟨⟨c, ⟨p, cs⟩ :: fs⟩, false, st⟩ = _
    rw [hP]
    unfold childrenEntries
    cases hsc : subtreeEntries source c with
    | none => rfl
    | some e1 =>
      show moveAfter source ⟨c, ⟨p, cs⟩ :: fs⟩ (e1.reverse ++ st) = _
      rw [moveAfter_frame]
      rw [hQ]
      cases hcc : childrenEntries source cs with
      | none => rfl
      | some es2 =>
        show to_sexp_loop source ⟨⟨p, fs⟩, true, es2.reverse ++ (e1.reverse ++ st)⟩ =
          to_sexp_loop source ⟨⟨p, fs⟩, true, (e1 ++ es2).reverse ++ st⟩
        rw [show (e1 ++ es2).reverse ++ st = es2.reverse ++ (e1.reverse ++ st) by simp]

/-- The entry collapsed for a whole tree: `to_sexp` returns exactly the
single-element unwrap (`finalize`) of the subtree's entries. -/
theorem to_sexp_eq_entries (source : List Nat) (tree : Node) :
    to_sexp source tree = (subtreeEntries source tree).map listOrSingle := by
  rw [to_sexp_eq_loop]
  show (to_sexp_loop source ⟨⟨tree, []⟩, false, []⟩).map finalize = _
  rw [(to_sexp_loop_spec source).1 tree [] []]
  cases hse : subtreeEntries source tree with
  | none => rfl
  | some es =>
    show (moveAfter source ⟨tree, []⟩ (es.reverse ++ [])).map finalize =
      some (listOrSingle es)
    rw [show moveAfter source ⟨tree, []⟩ (es.reverse ++ []) =
      some (es.reverse ++ []) from rfl]
    show some (finalize (es.reverse ++ [])) = some (listOrSingle es)
    rw [show es.reverse ++ [] = es.reverse by simp]
    unfold finalize
    rw [List.reverse_reverse]
    match es with
    | [] => rfl
    | [x] => rfl
    | x :: y :: zs => rfl

theorem decodeSlice_eq_some (source : List Nat) (sb eb : Nat) (v : List Nat)
    (h : decodeSlice source sb eb = some v) : v = sliceRange source sb eb := by
  unfold decodeSlice at h
  split at h
  · split at h
    · cases h; rfl
    · cases h
  · cases h

/-- Every subtree contributes at least one entry to the stack. -/
theorem entries_ne_nil (source : List Nat) :
    (∀ n, ∀ es, subtreeEntries source n = some es → es ≠ []) ∧
    (∀ l, ∀ es, childrenEntries source l = some es → l ≠ [] → es ≠ []) := by
  apply node_mutual_ind
  · intro nm f k sb eb cs hQ es hes
    cases cs with
    | nil =>
      unfold subtreeEntries at hes
      cases hd : decodeSlice source sb eb with
      | none => rw [hd] at hes; cases hes
      | some v =>
        rw [hd] at hes
        cases nm with
        | true =>
          simp only [if_pos] at hes
          cases hes
          simp
        | false =>
          simp only [if_neg] at hes
          cases hes
          simp
    | cons c cs2 =>
      unfold subtreeEntries at hes
      cases hce : childrenEntries source (c :: cs2) with
      | none => rw [hce] at hes; cases hes
      | some ces =>
        rw [hce] at hes
        cases nm with
        | true =>
          simp only [if_pos] at hes
          cases hes
          simp
        | false =>
          simp only [if_neg] at hes
          cases hes
          exact hQ _ hce (by simp)
  · intro es hes hne
    exact absurd rfl hne
  · intro c cs hP hQ es hes _
    unfold childrenEntries at hes
    cases hsc : subtreeEntries source c with
    | none => rw [hsc] at hes; cases hes
    | some e1 =>
      rw [hsc] at hes
      cases hcc : childrenEntries source cs with
      | none => rw [hcc] at hes; cases hes
      | some es2 =>
        rw [hcc] at hes
        cases hes
        have h1 := hP e1 hsc
        intro hcontra
        rcases List.append_eq_nil.mp hcontra with ⟨h2, _⟩
        exact h1 h2

mutual

/-- `true` when a finished value contains no `Token` variant anywhere. -/
def SExp.tokenFree : SExp → Bool
  | .Token _ => false
  | .List es => tokenFreeList es
  | _ => true

def tokenFreeList : List SExp → Bool
  | [] => true
  | e :: es => SExp.tokenFree e && tokenFreeList es

end

mutual

/-- Number of `Kind` entries contained anywhere in a value. -/
def SExp.kindCount : SExp → Nat
  | .Kind _ => 1
  | .List es => kindCountList es
  | _ => 0

def kindCountList : List SExp → Nat
  | [] => 0
  | e :: es => SExp.kindCount e + kindCountList es

end

mutual

/-- The texts of all `Value` entries of a value, in order. -/
def SExp.valueTexts : SExp → List (List Nat)
  | .Value v => [v]
  | .List es => valueTextsList es
  | _ => []

def valueTextsList : List SExp → List (List Nat)
  | [] => []
  | e :: es => SExp.valueTexts e ++ valueTextsList es

end

mutual

/-- Number of named nodes in a tree. -/
def Node.namedCount : Node → Nat
  | .mk nm _ _ _ _ cs => (if nm then 1 else 0) + namedCountList cs

def namedCountList : List Node → Nat
  | [] => 0
  | c :: cs => Node.namedCount c + namedCountList cs

end

mutual

/-- The byte ranges `source[start_byte..end_byte]` of all leaves of a tree,
in traversal order. -/
def Node.leafSlices (source : List Nat) : Node → List (List Nat)
  | .mk _ _ _ sb eb [] => [sliceRange source sb eb]
  | .mk _ _ _ _ _ (c :: cs) => leafSlicesList source (c :: cs)

def leafSlicesList (source : List Nat) : List Node → List (List Nat)
  | [] => []
  | c :: cs => Node.leafSlices source c ++ leafSlicesList source cs

end

/-- The precondition of the leaf text extraction: the byte range lies within
the buffer and its content is valid UTF-8 (so the Rust slice and
`str::from_utf8` both succeed). -/
def validRange (source : List Nat) (sb eb : Nat) : Bool :=
  decide (sb ≤ eb ∧ eb ≤ source.length) && validUtf8 (sliceRange source sb eb)

mutual

/-- `true` when every leaf of the tree has a well-formed byte range. -/
def Node.leavesValid (source : List Nat) : Node → Bool
  | .mk _ _ _ sb eb [] => validRange source sb eb
  | .mk _ _ _ _ _ (c :: cs) => leavesValidList source (c :: cs)

def leavesValidList (source : List Nat) : List Node → Bool
  | [] => true
  | c :: cs => Node.leavesValid source c && leavesValidList source cs

end

mutual

/-- `true` when, in every `List` nested anywhere in the value, each `Field`
entry is immediately followed by the `List` or `Value` entry it annotates
(in particular no `Field` is last, follows its annotated entry, or is
followed by another `Field`, a `Kind` or a `Token`). -/
def SExp.fieldOk : SExp → Bool
  | .List es => fieldChainOk es
  | _ => true

def fieldChainOk : List SExp → Bool
  | [] => true
  | SExp.Field _ :: rest =>
    match rest with
    | SExp.List es :: rest2 => fieldChainOk es && fieldChainOk rest2
    | SExp.Value _ :: rest2 => fieldChainOk rest2
    | _ => false
  | e :: rest => SExp.fieldOk e && fieldChainOk rest

end

theorem tokenFreeList_append (a b : List SExp) :
    tokenFreeList (a ++ b) = (tokenFreeList a && tokenFreeList b) := by
  induction a with
  | nil => simp [tokenFreeList]
  | cons e es ih =>
    show (SExp.tokenFree e && tokenFreeList (es ++ b)) = _
    rw [ih]
    show _ = ((SExp.tokenFree e && tokenFreeList es) && tokenFreeList b)
    rw [Bool.and_assoc]

theorem kindCountList_append (a b : List SExp) :
    kindCountList (a ++ b) = kindCountList a + kindCountList b := by
  induction a with
  | nil => simp [kindCountList]
  | cons e es ih =>
    show SExp.kindCount e + kindCountList (es ++ b) = _
    rw [ih]
    show _ = SExp.kindCount e + kindCountList es + kindCountList b
    omega

theorem valueTextsList_append (a b : List SExp) :
    valueTextsList (a ++ b) = valueTextsList a ++ valueTextsList b := by
  induction a with
  | nil => simp [valueTextsList]
  | cons e es ih =>
    show SExp.valueTexts e ++ valueTextsList (es ++ b) = _
    rw [ih]
    show _ = (SExp.valueTexts e ++ valueTextsList es) ++ valueTextsList b
    rw [List.append_assoc]

theorem tokenFree_listOrSingle (l : List SExp) :
    SExp.tokenFree (listOrSingle l) = tokenFreeList l := by
  match l with
  | [] => rfl
  | [x] => show SExp.tokenFree x = (SExp.tokenFree x && true); simp
  | x :: y :: zs => rfl

theorem kindCount_listOrSingle (l : List SExp) :
    SExp.kindCount (listOrSingle l) = kindCountList l := by
  match l with
  | [] => rfl
  | [x] => show SExp.kindCount x = SExp.kindCount x + 0; omega
  | x :: y :: zs => rfl

theorem valueTexts_listOrSingle (l : List SExp) :
    SExp.valueTexts (listOrSingle l) = valueTextsList l := by
  match l with
  | [] => rfl
  | [x] => show SExp.valueTexts x = SExp.valueTexts x ++ []; simp
  | x :: y :: zs => rfl

theorem tokenFreeList_fieldPre (n : Node) : tokenFreeList (fieldPre n) = true := by
  unfold fieldPre
  cases n.field_name <;> rfl

theorem kindCountList_fieldPre (n : Node) : kindCountList (fieldPre n) = 0 := by
  unfold fieldPre
  cases n.field_name <;> rfl

theorem valueTextsList_fieldPre (n : Node) : valueTextsList (fieldPre n) = [] := by
  unfold fieldPre
  cases n.field_name <;> rfl

/-- No entry contributed by a subtree contains a `Token` anywhere. -/
theorem entries_tokenFree (source : List Nat) :
    (∀ n, ∀ es, subtreeEntries source n = some es → tokenFreeList es = true) ∧
    (∀ l, ∀ es, childrenEntries source l = some es → tokenFreeList es = true) := by
  apply node_mutual_ind
  · intro nm f k sb eb cs hQ es hes
    cases cs with
    | nil =>
      unfold subtreeEntries at hes
      cases hd : decodeSlice source sb eb with
      | none => rw [hd] at hes; cases hes
      | some v =>
        rw [hd] at hes
        cases nm with
        | true =>
          simp only [if_pos] at hes
          cases hes
          rw [tokenFreeList_append, tokenFreeList_fieldPre]
          rfl
        | false =>
          simp only [if_neg] at hes
          cases hes
          rfl
    | cons c cs2 =>
      unfold subtreeEntries at hes
      cases hce : childrenEntries source (c :: cs2) with
      | none => rw [hce] at hes; cases hes
      | some ces =>
        rw [hce] at hes
        cases nm with
        | true =>
          simp only [if_pos] at hes
          cases hes
          rw [tokenFreeList_append, tokenFreeList_fieldPre]
          show (true && (SExp.tokenFree (listOrSingle (SExp.Kind k :: ces)) && true)) = true
          rw [tokenFree_listOrSingle]
          show (true && ((SExp.tokenFree (SExp.Kind k) && tokenFreeList ces) && true)) = true
          rw [hQ _ hce]
          rfl
        | false =>
          simp only [if_neg] at hes
          cases hes
          exact hQ _ hce
  · intro es hes
    cases hes
    rfl
  · intro c cs hP hQ es hes
    unfold childrenEntries at hes
    cases hsc : subtreeEntries source c with
    | none => rw [hsc] at hes; cases hes
    | some e1 =>
      rw [hsc] at hes
      cases hcc : childrenEntries source cs with
      | none => rw [hcc] at hes; cases hes
      | some es2 =>
        rw [hcc] at hes
        cases hes
        rw [tokenFreeList_append, hP _ hsc, hQ _ hcc]
        rfl

/-- The entries contributed by a subtree hold one `Kind` per named node. -/
theorem entries_kindCount (source : List Nat) :
    (∀ n, ∀ es, subtreeEntries source n = some es →
      kindCountList es = Node.namedCount n) ∧
    (∀ l, ∀ es, childrenEntries source l = some es →
      kindCountList es = namedCountList l) := by
  apply node_mutual_ind
  · intro nm f k sb eb cs hQ es hes
    cases cs with
    | nil =>
      unfold subtreeEntries at hes
      cases hd : decodeSlice source sb eb with
      | none => rw [hd] at hes; cases hes
      | some v =>
        rw [hd] at hes
        cases nm with
        | true =>
          simp only [if_pos] at hes
          cases hes
          rw [kindCountList_append, kindCountList_fieldPre]
          rfl
        | false =>
          simp only [if_neg] at hes
          cases hes
          rfl
    | cons c cs2 =>
      unfold subtreeEntries at hes
      cases hce : childrenEntries source (c :: cs2) with
      | none => rw [hce] at hes; cases hes
      | some ces =>
        rw [hce] at hes
        cases nm with
        | true =>
          simp only [if_pos] at hes
          cases hes
          rw [kindCountList_append, kindCountList_fieldPre]
          show 0 + (SExp.kindCount (listOrSingle (SExp.Kind k :: ces)) + 0) =
            Node.namedCount (Node.mk true f k sb eb (c :: cs2))
          rw [kindCount_listOrSingle]
          show 0 + ((1 + kindCountList ces) + 0) =
            (if true then 1 else 0) + namedCountList (c :: cs2)
          rw [hQ _ hce]
          simp
        | false =>
          simp only [if_neg] at hes
          cases hes
          show kindCountList es = (if false then 1 else 0) + namedCountList (c :: cs2)
          rw [hQ _ hce]
          simp
  · intro es hes
    cases hes
    rfl
  · intro c cs hP hQ es hes
    unfold childrenEntries at hes
    cases hsc : subtreeEntries source c with
    | none => rw [hsc] at hes; cases hes
    | some e1 =>
      rw [hsc] at hes
      cases hcc : childrenEntries source cs with
      | none => rw [hcc] at hes; cases hes
      | some es2 =>
        rw [hcc] at hes
        cases hes
        rw [kindCountList_append, hP _ hsc, hQ _ hcc]
        rfl

/-- The `Value` texts in a subtree's entries are exactly its leaves' byte
ranges, in traversal order. -/
theorem entries_valueTexts (source : List Nat) :
    (∀ n, ∀ es, subtreeEntries source n = some es →
      valueTextsList es = Node.leafSlices source n) ∧
    (∀ l, ∀ es, childrenEntries source l = some es →
      valueTextsList es = leafSlicesList source l) := by
  apply node_mutual_ind
  · intro nm f k sb eb cs hQ es hes
    cases cs with
    | nil =>
      unfold subtreeEntries at hes
      cases hd : decodeSlice source sb eb with
      | none => rw [hd] at hes; cases hes
      | some v =>
        have hv := decodeSlice_eq_some source sb eb v hd
        subst hv
        rw [hd] at hes
        cases nm with
        | true =>
          simp only [if_pos] at hes
          cases hes
          rw [valueTextsList_append, valueTextsList_fieldPre]
          rfl
        | false =>
          simp only [if_neg] at hes
          cases hes
          rfl
    | cons c cs2 =>
      unfold subtreeEntries at hes
      cases hce : childrenEntries source (c :: cs2) with
      | none => rw [hce] at hes; cases hes
      | some ces =>
        rw [hce] at hes
        cases nm with
        | true =>
          simp only [if_pos] at hes
          cases hes
          rw [valueTextsList_append, valueTextsList_fieldPre]
          show [] ++ (SExp.valueTexts (listOrSingle (SExp.Kind k :: ces)) ++ []) = _
          rw [valueTexts_listOrSingle]
          show [] ++ (([] ++ valueTextsList ces) ++ []) =
            Node.leafSlices source (Node.mk true f k sb eb (c :: cs2))
          rw [hQ _ hce]
          simp [Node.leafSlices]
        | false =>
          simp only [if_neg] at hes
          cases hes
          show valueTextsList es = Node.leafSlices source (Node.mk false f k sb eb (c :: cs2))
          rw [hQ _ hce]
          rfl
  · intro es hes
    cases hes
    rfl
  · intro c cs hP hQ es hes
    unfold childrenEntries at hes
    cases hsc : subtreeEntries source c with
    | none => rw [hsc] at hes; cases hes
    | some e1 =>
      rw [hsc] at hes
      cases hcc : childrenEntries source cs with
      | none => rw [hcc] at hes; cases hes
      | some es2 =>
        rw [hcc] at hes
        cases hes
        rw [valueTextsList_append, hP _ hsc, hQ _ hcc]
        rfl

theorem decodeSlice_isSome (source : List Nat) (sb eb : Nat) :
    (decodeSlice source sb eb).isSome = validRange source sb eb := by
  unfold decodeSlice validRange
  split
  · rename_i h
    rw [decide_eq_true h]
    cases hu : validUtf8 (sliceRange source sb eb) <;> simp [hu]
  · rename_i h
    rw [decide_eq_false h]
    simp

/-- The traversal denotation succeeds exactly when every leaf's byte range
is well formed. -/
theorem entries_isSome (source : List Nat) :
    (∀ n, (subtreeEntries source n).isSome = Node.leavesValid source n) ∧
    (∀ l, (childrenEntries source l).isSome = leavesValidList source l) := by
  apply node_mutual_ind
  · intro nm f k sb eb cs hQ
    cases cs with
    | nil =>
      show (subtreeEntries source (Node.mk nm f k sb eb [])).isSome =
        validRange source sb eb
      rw [← decodeSlice_isSome]
      unfold subtreeEntries
      cases hd : decodeSlice source sb eb with
      | none => rfl
      | some v => cases nm <;> rfl
    | cons c cs2 =>
      show (subtreeEntries source (Node.mk nm f k sb eb (c :: cs2))).isSome =
        leavesValidList source (c :: cs2)
      rw [← hQ]
      unfold subtreeEntries
      cases hce : childrenEntries source (c :: cs2) with
      | none => rfl
      | some ces => cases nm <;> rfl
  · rfl
  · intro c cs hP hQ
    show (childrenEntries source (c :: cs)).isSome =
      (Node.leavesValid source c && leavesValidList source cs)
    rw [← hP, ← hQ]
    rw [show childrenEntries source (c :: cs) =
      (match subtreeEntries source c, childrenEntries source cs with
       | some e, some es => some (e ++ es)
       | _, _ => none) from rfl]
    cases hsc : subtreeEntries source c with
    | none => rfl
    | some e1 =>
      cases hcc : childrenEntries source cs with
      | none => rfl
      | some es2 => rfl

theorem fieldChainOk_append (a b : List SExp) (ha : fieldChainOk a = true)
    (hb : fieldChainOk b = true) : fieldChainOk (a ++ b) = true := by
  have key : ∀ len, ∀ x : List SExp, x.length ≤ len → fieldChainOk x = true →
      fieldChainOk (x ++ b) = true := by
    intro len
    induction len with
    | zero =>
      intro x hlen hx
      match x with
      | [] => simpa using hb
      | e :: rest => simp at hlen
    | succ len ih =>
      intro x hlen hx
      match x with
      | [] => simpa using hb
      | SExp.Field g :: SExp.List es :: rest2 =>
        have h2 : (fieldChainOk es && fieldChainOk rest2) = true := hx
        rw [Bool.and_eq_true] at h2
        show (fieldChainOk es && fieldChainOk (rest2 ++ b)) = true
        rw [h2.1, ih rest2 (by simp at hlen; omega) h2.2]
        rfl
      | SExp.Field g :: SExp.Value v :: rest2 =>
        have h2 : fieldChainOk rest2 = true := hx
        show fieldChainOk (rest2 ++ b) = true
        exact ih rest2 (by simp at hlen; omega) h2
      | [SExp.Field g] => exact Bool.noConfusion hx
      | SExp.Field g :: SExp.Kind s :: rest2 => exact Bool.noConfusion hx
      | SExp.Field g :: SExp.Field g2 :: rest2 => exact Bool.noConfusion hx
      | SExp.Field g :: SExp.Token t :: rest2 => exact Bool.noConfusion hx
      | SExp.Kind s :: rest =>
        have h2 : (SExp.fieldOk (SExp.Kind s) && fieldChainOk rest) = true := hx
        rw [Bool.and_eq_true] at h2
        show (SExp.fieldOk (SExp.Kind s) && fieldChainOk (rest ++ b)) = true
        rw [h2.1, ih rest (by simp at hlen; omega) h2.2]
        rfl
      | SExp.Value v :: rest =>
        have h2 : (SExp.fieldOk (SExp.Value v) && fieldChainOk rest) = true := hx
        rw [Bool.and_eq_true] at h2
        show (SExp.fieldOk (SExp.Value v) && fieldChainOk (rest ++ b)) = true
        rw [h2.1, ih rest (by simp at hlen; omega) h2.2]
        rfl
      | SExp.List es :: rest =>
        have h2 : (SExp.fieldOk (SExp.List es) && fieldChainOk rest) = true := hx
        rw [Bool.and_eq_true] at h2
        show (SExp.fieldOk (SExp.List es) && fieldChainOk (rest ++ b)) = true
        rw [h2.1, ih rest (by simp at hlen; omega) h2.2]
        rfl
      | SExp.Token t :: rest =>
        have h2 : (SExp.fieldOk (SExp.Token t) && fieldChainOk rest) = true := hx
        rw [Bool.and_eq_true] at h2
        show (SExp.fieldOk (SExp.Token t) && fieldChainOk (rest ++ b)) = true
        rw [h2.1, ih rest (by simp at hlen; omega) h2.2]
        rfl
  exact key a.length a le_rfl ha

/-- In the entries contributed by any subtree, every `Field` entry is
immediately followed by the `List` (or `Value`) it annotates, at every
nesting level. -/
theorem entries_fieldChainOk (source : List Nat) :
    (∀ n, ∀ es, subtreeEntries source n = some es → fieldChainOk es = true) ∧
    (∀ l, ∀ es, childrenEntries source l = some es → fieldChainOk es = true) := by
  apply node_mutual_ind
  · intro nm f k sb eb cs hQ es hes
    cases cs with
    | nil =>
      unfold subtreeEntries at hes
      cases hd : decodeSlice source sb eb with
      | none => rw [hd] at hes; cases hes
      | some v =>
        rw [hd] at hes
        cases nm with
        | true =>
          simp only [if_pos] at hes
          cases hes
          show fieldChainOk (fieldPre (Node.mk true f k sb eb []) ++
            [listOrSingle [SExp.Kind k, SExp.Value v]]) = true
          unfold fieldPre
          cases hf : Node.field_name (Node.mk true f k sb eb []) with
          | none => rfl
          | some g => rfl
        | false =>
          simp only [if_neg] at hes
          cases hes
          rfl
    | cons c cs2 =>
      unfold subtreeEntries at hes
      cases hce : childrenEntries source (c :: cs2) with
      | none => rw [hce] at hes; cases hes
      | some ces =>
        rw [hce] at hes
        cases nm with
        | true =>
          simp only [if_pos] at hes
          cases hes
          have hne := (entries_ne_nil source).2 (c :: cs2) ces hce (by simp)
          match ces, hne with
          | x :: xs, _ =>
            have hchain : fieldChainOk (SExp.Kind k :: x :: xs) = true := by
              have h3 := hQ _ hce
              show (SExp.fieldOk (SExp.Kind k) && fieldChainOk (x :: xs)) = true
              rw [h3]
              rfl
            show fieldChainOk (fieldPre (Node.mk true f k sb eb (c :: cs2)) ++
              [SExp.List (SExp.Kind k :: x :: xs)]) = true
            unfold fieldPre
            cases hf : Node.field_name (Node.mk true f k sb eb (c :: cs2)) with
            | none =>
              show (SExp.fieldOk (SExp.List (SExp.Kind k :: x :: xs)) &&
                fieldChainOk []) = true
              rw [show SExp.fieldOk (SExp.List (SExp.Kind k :: x :: xs)) =
                fieldChainOk (SExp.Kind k :: x :: xs) from rfl, hchain]
              rfl
            | some g =>
              show (fieldChainOk (SExp.Kind k :: x :: xs) && fieldChainOk []) = true
              rw [hchain]
              rfl
        | false =>
          simp only [if_neg] at hes
          cases hes
          exact hQ _ hce
  · intro es hes
    cases hes
    rfl
  · intro c cs hP hQ es hes
    unfold childrenEntries at hes
    cases hsc : subtreeEntries source c with
    | none => rw [hsc] at hes; cases hes
    | some e1 =>
      rw [hsc] at hes
      cases hcc : childrenEntries source cs with
      | none => rw [hcc] at hes; cases hes
      | some es2 =>
        rw [hcc] at hes
        cases hes
        exact fieldChainOk_append e1 es2 (hP _ hsc) (hQ _ hcc)

/-- UTF-8 bytes of a string as printed by `print!`. -/
def strBytes (s : String) : List Nat := s.toUTF8.toList.map (fun b => b.toNat)

/-- The mutable state of the `dump_sexp` loop (src/main.rs lines 90-140):
cursor, `needs_newline`, `indent_level` (an `i32`, modelled as `Int`),
`visited_children`, and the bytes printed so far. -/
structure DumpState where
  cursor : Cursor
  needs_newline : Bool
  indent_level : Int
  visited_children : Bool
  out : List Nat

inductive DumpOutcome where
  | next (s : DumpState)
  | done (out : List Nat)
  | failed

/-- `for _ in 0..indent_level { print!("  ") }` (an empty range when the
level is not positive). -/
def indentBytes (i : Int) : List Nat :=
  (List.replicate i.toNat (strBytes "  ")).flatten

/-- `if let Some(field_name) = cursor.field_name() { print!("{}: ", ..) }`. -/
def fieldBytes (n : Node) : List Nat :=
  match n.field_name with
  | some f => strBytes f ++ strBytes ": "
  | none => []

/-- One iteration of the `loop` in `dump_sexp` (src/main.rs lines 96-138).
`failed` models the `expect("has a string")` panic. -/
def dump_step (source : List Nat) (s : DumpState) : DumpOutcome :=
  if s.visited_children then
    let out := if s.cursor.node.is_named then s.out ++ strBytes ")" else s.out
    match goto_next_sibling s.cursor with
    | some c => .next ⟨c, s.needs_newline, s.indent_level, false, out⟩
    | none =>
      match goto_parent s.cursor with
      | some c => .next ⟨c, s.needs_newline, s.indent_level - 1, true, out⟩
      | none => .done out
  else
    let out :=
      if s.cursor.node.is_named then
        s.out ++ (if s.needs_newline then strBytes "\n" else []) ++
          indentBytes s.indent_level ++ fieldBytes s.cursor.node ++
          strBytes "(" ++ strBytes s.cursor.node.kind
      else s.out
    let needs := if s.cursor.node.is_named then true else s.needs_newline
    match goto_first_child s.cursor with
    | some c => .next ⟨c, needs, s.indent_level + 1, false, out⟩
    | none =>
      match decodeSlice source s.cursor.node.start_byte s.cursor.node.end_byte with
      | some v => .next ⟨s.cursor, needs, s.indent_level, true,
          out ++ strBytes " `" ++ v ++ strBytes "`"⟩
      | none => .failed

/-- Loop variant for `dump_sexp` (same cursor walk as `to_sexp`). -/
def dumpMeasure (s : DumpState) : Nat :=
  (if s.visited_children then 1 else 2 * Node.size s.cursor.node) +
    framesWeight s.cursor.frames

theorem dump_step_decreases (source : List Nat) (s s2 : DumpState)
    (h : dump_step source s = DumpOutcome.next s2) :
    dumpMeasure s2 < dumpMeasure s := by
  obtain ⟨⟨n, fs⟩, nn, il, visited, out⟩ := s
  unfold dump_step at h
  cases visited with
  | true =>
    simp only [goto_next_sibling, goto_parent] at h
    match fs with
    | [] =>
      simp only at h
      cases h
    | ⟨p, []⟩ :: fs2 =>
      simp only at h
      cases h
      simp [dumpMeasure, framesWeight, sizeList]
    | ⟨p, s1 :: ss⟩ :: fs2 =>
      simp only at h
      cases h
      have h1 := size_pos s1
      simp [dumpMeasure, framesWeight, sizeList]
      omega
  | false =>
    obtain ⟨b, f, k, sb, eb, cs⟩ := n
    simp only [goto_first_child, Node.children] at h
    cases cs with
    | nil =>
      simp only at h
      cases hd : decodeSlice source (Node.mk b f k sb eb []).start_byte
          (Node.mk b f k sb eb []).end_byte with
      | none => rw [hd] at h; cases h
      | some v =>
        rw [hd] at h
        cases h
        simp [dumpMeasure, Node.size, sizeList]
    | cons ch rest =>
      simp only at h
      cases h
      have h1 := size_pos ch
      simp [dumpMeasure, framesWeight, Node.size, sizeList]
      omega

/-- Fuel-indexed iteration of the `dump_sexp` loop; on a normal exit the
trailing `println!("")` newline is appended. -/
def dump_go (source : List Nat) : Nat → DumpState → Option (Option (List Nat))
  | 0, _ => none
  | fuel + 1, s =>
    match dump_step source s with
    | .next s2 => dump_go source fuel s2
    | .done out => some (some (out ++ strBytes "\n"))
    | .failed => some none

/-- `dump_sexp` from src/main.rs: the bytes it prints (`none` on a byte-range
panic); run with the proven-sufficient fuel `dumpMeasure`. -/
def dump_sexp (source : List Nat) (tree : Node) : Option (List Nat) :=
  match dump_go source (dumpMeasure ⟨⟨tree, []⟩, false, 0, false, []⟩)
      ⟨⟨tree, []⟩, false, 0, false, []⟩ with
  | some (some out) => some out
  | _ => none

/-- Example tree: named node "a" wrapping a single named leaf "b" over the
one-byte source "x". -/
def exChild : Node := Node.mk true none "b" 0 1 []

def exParent : Node := Node.mk true none "a" 0 1 [exChild]

/-- Example tree whose leaf carries a field name. -/
def exFieldTree : Node := Node.mk true none "a" 0 1 [Node.mk true (some "fld") "b" 0 1 []]

/-- Example tree with an unnamed internal node. -/
def exUnnamed : Node := Node.mk false none "u" 0 1 [exChild]

/-- C1: for every source buffer and tree, the S-expression value returned by
`to_sexp` contains no `Token` variant anywhere — neither as the root result
nor nested inside any `List`; the delimiter pushed when a named node is
entered is fully consumed by `construct_list` before the value is returned. -/
theorem to_sexp_no_token (source : List Nat) (tree : Node) (v : SExp)
    (h : to_sexp source tree = some v) : SExp.tokenFree v = true := by
  rw [to_sexp_eq_entries] at h
  cases hse : subtreeEntries source tree with
  | none => rw [hse] at h; cases h
  | some es =>
    rw [hse, Option.map_some'] at h
    cases h
    rw [tokenFree_listOrSingle]
    exact (entries_tokenFree source).1 tree es hse

theorem to_sexp_no_token_witness :
    SExp.tokenFree (SExp.List [SExp.Kind "a",
      SExp.List [SExp.Kind "b", SExp.Value [120]]]) = true :=
  to_sexp_no_token [120] exParent
    (SExp.List [SExp.Kind "a", SExp.List [SExp.Kind "b", SExp.Value [120]]]) rfl

/-- C2: for every tree, the number of `Kind` entries contained (at any
nesting depth) in the value returned by `to_sexp` equals the number of named
nodes in the input tree. -/
theorem to_sexp_kind_count (source : List Nat) (tree : Node) (v : SExp)
    (h : to_sexp source tree = some v) : SExp.kindCount v = Node.namedCount tree := by
  rw [to_sexp_eq_entries] at h
  cases hse : subtreeEntries source tree with
  | none => rw [hse] at h; cases h
  | some es =>
    rw [hse, Option.map_some'] at h
    cases h
    rw [kindCount_listOrSingle]
    exact (entries_kindCount source).1 tree es hse

theorem to_sexp_kind_count_witness :
    SExp.kindCount (SExp.List [SExp.Kind "a",
      SExp.List [SExp.Kind "b", SExp.Value [120]]]) = Node.namedCount exParent :=
  to_sexp_kind_count [120] exParent
    (SExp.List [SExp.Kind "a", SExp.List [SExp.Kind "b", SExp.Value [120]]]) rfl

/-- C3: for every leaf node of the tree, the `Value` entry produced for it
holds exactly the byte-for-byte substring of the source buffer between that
node's `start_byte` and `end_byte` offsets: the `Value` texts of the result,
in traversal order, are exactly the byte ranges of the leaves in traversal
order. -/
theorem to_sexp_value_texts (source : List Nat) (tree : Node) (v : SExp)
    (h : to_sexp source tree = some v) :
    SExp.valueTexts v = Node.leafSlices source tree := by
  rw [to_sexp_eq_entries] at h
  cases hse : subtreeEntries source tree with
  | none => rw [hse] at h; cases h
  | some es =>
    rw [hse, Option.map_some'] at h
    cases h
    rw [valueTexts_listOrSingle]
    exact (entries_valueTexts source).1 tree es hse

theorem to_sexp_value_texts_witness :
    SExp.valueTexts (SExp.List [SExp.Kind "a",
      SExp.List [SExp.Kind "b", SExp.Value [120]]]) = Node.leafSlices [120] exParent :=
  to_sexp_value_texts [120] exParent
    (SExp.List [SExp.Kind "a", SExp.List [SExp.Kind "b", SExp.Value [120]]]) rfl

/-- C4 counterexample: the named node `"a"` of `exParent` has exactly one
retained child (the entry of the named leaf `"b"`), yet the List Collapser
does NOT produce that child's entry directly: the result keeps the
`List [Kind "a", childEntry]` wrapper, because the accumulated region also
contains the node's own `Kind` entry (two entries, so no unwrap). -/
theorem construct_list_one_child_cex :
    to_sexp [120] exParent =
      some (SExp.List [SExp.Kind "a", SExp.List [SExp.Kind "b", SExp.Value [120]]]) ∧
    to_sexp [120] exParent ≠ some (SExp.List [SExp.Kind "b", SExp.Value [120]]) :=
  ⟨rfl, fun h =>
    absurd (congrArg (fun o => Option.map SExp.kindCount o) h) (by decide)⟩

/-- C4 amended: when exactly one accumulated entry sits above the delimiter,
`construct_list` pushes that entry unchanged instead of wrapping it in a
`List`; but at a named node's close the accumulated region always also
contains the node's own `Kind` entry, so a named node with exactly one
retained child collapses to `List [Kind, child]` and not to the bare child
(see the counterexample). -/
theorem construct_list_single_entry (x : SExp) (rest : List SExp)
    (hx : SExp.isOpenToken x = false) :
    construct_list (x :: SExp.Token "(" :: rest) = x :: rest := by
  have h := construct_list_region [x] rest
    (by intro e he; simp at he; subst he; exact hx)
  simp only [List.cons_append, List.nil_append] at h
  rw [h]
  rfl

theorem construct_list_single_entry_witness :
    construct_list [SExp.Value [121], SExp.Token "(", SExp.Kind "z"] =
      [SExp.Value [121], SExp.Kind "z"] :=
  construct_list_single_entry (SExp.Value [121]) [SExp.Kind "z"] rfl

/-- C6: in every finished value, whenever a `Field` entry appears inside a
`List`, it immediately precedes (in the list's order) the `List` or `Value`
entry it annotates, and never follows it. -/
theorem to_sexp_field_precedes (source : List Nat) (tree : Node) (v : SExp)
    (h : to_sexp source tree = some v) : SExp.fieldOk v = true := by
  rw [to_sexp_eq_entries] at h
  cases hse : subtreeEntries source tree with
  | none => rw [hse] at h; cases h
  | some es =>
    rw [hse, Option.map_some'] at h
    cases h
    have hch := (entries_fieldChainOk source).1 tree es hse
    match es, hch with
    | [], _ => rfl
    | [x], hch =>
      match x, hch with
      | SExp.Kind s, h2 => rfl
      | SExp.Value v2, h2 => rfl
      | SExp.Token t, h2 => rfl
      | SExp.List es2, h2 =>
        show SExp.fieldOk (SExp.List es2) = true
        have h3 : (SExp.fieldOk (SExp.List es2) && true) = true := h2
        simpa using h3
      | SExp.Field g, h2 => exact Bool.noConfusion h2
    | x :: y :: zs, hch =>
      show fieldChainOk (x :: y :: zs) = true
      exact hch

theorem to_sexp_field_precedes_witness :
    SExp.fieldOk (SExp.List [SExp.Kind "a", SExp.Field "fld",
      SExp.List [SExp.Kind "b", SExp.Value [120]]]) = true :=
  to_sexp_field_precedes [120] exFieldTree
    (SExp.List [SExp.Kind "a", SExp.Field "fld",
      SExp.List [SExp.Kind "b", SExp.Value [120]]]) rfl

/-- C7 counterexample: `construct_list` invoked on a stack containing no
`Token` delimiter silently succeeds — it pops and discards the whole stack
contents, returns normally, and the traversal would continue. -/
theorem construct_list_no_delim_cex : construct_list [SExp.Kind "a"] = [] := rfl

/-- C7 amended: when the stack holds no delimiter, `construct_list` is NOT
treated as a fatal condition: the pop loop quietly drains the entire stack,
discards the accumulated entries, and returns normally with an empty stack. -/
theorem construct_list_no_delim (st : List SExp)
    (h : ∀ e ∈ st, SExp.isOpenToken e = false) : construct_list st = [] := by
  have key : ∀ st2, (∀ e ∈ st2, SExp.isOpenToken e = false) →
      ∀ elems, construct_list_go st2 elems = [] := by
    intro st2
    induction st2 with
    | nil => intro _ elems; rfl
    | cons e rest ih =>
      intro h2 elems
      have he : SExp.isOpenToken e = false := h2 e (List.mem_cons_self e rest)
      show construct_list_go (e :: rest) elems = []
      unfold construct_list_go
      rw [if_neg (by simp [he])]
      exact ih (fun x hx => h2 x (List.mem_cons_of_mem e hx)) (elems ++ [e])
  exact key st h []

theorem construct_list_no_delim_witness :
    construct_list [SExp.Kind "b", SExp.Value [122]] = [] :=
  construct_list_no_delim [SExp.Kind "b", SExp.Value [122]] (by decide)

/-- C8: `to_sexp` returns a value exactly when every leaf's byte range lies
within the source buffer and holds valid UTF-8 (so under that precondition
the extraction never fails and the decode-failure branch is unreachable),
and on any malformed byte range the traversal aborts and returns no partial
value. -/
theorem to_sexp_isSome_eq_leavesValid (source : List Nat) (tree : Node) :
    (to_sexp source tree).isSome = Node.leavesValid source tree := by
  rw [to_sexp_eq_entries]
  rw [← (entries_isSome source).1 tree]
  cases subtreeEntries source tree <;> rfl

/-- C10: every named node's collapsed entry is a `List` whose first element
is the node's own `Kind` entry, preceded by its optional `Field`; the
accumulated region (`Kind` plus at least one child entry, `ys ≠ []`) always
has at least two entries, so the single-entry unwrap branch of
`construct_list` never fires at a node close and unwrapping can occur only
at the final top-level return. -/
theorem named_node_entry_is_list (source : List Nat) (n : Node) (es : List SExp)
    (hse : subtreeEntries source n = some es) (hnm : n.is_named = true) :
    ∃ ys, ys ≠ [] ∧
      listOrSingle (SExp.Kind n.kind :: ys) = SExp.List (SExp.Kind n.kind :: ys) ∧
      es = fieldPre n ++ [SExp.List (SExp.Kind n.kind :: ys)] := by
  obtain ⟨nm, f, k, sb, eb, cs⟩ := n
  have hnm2 : nm = true := hnm
  subst hnm2
  cases cs with
  | nil =>
    unfold subtreeEntries at hse
    cases hd : decodeSlice source sb eb with
    | none => rw [hd] at hse; cases hse
    | some v =>
      rw [hd] at hse
      simp only [if_pos] at hse
      cases hse
      exact ⟨[SExp.Value v], by simp, rfl, rfl⟩
  | cons c cs2 =>
    unfold subtreeEntries at hse
    cases hce : childrenEntries source (c :: cs2) with
    | none => rw [hce] at hse; cases hse
    | some ces =>
      rw [hce] at hse
      simp only [if_pos] at hse
      cases hse
      have hne := (entries_ne_nil source).2 (c :: cs2) ces hce (by simp)
      match ces, hne with
      | x :: xs, _ => exact ⟨x :: xs, by simp, rfl, rfl⟩

theorem named_node_entry_is_list_witness :
    ∃ ys, ys ≠ [] ∧
      listOrSingle (SExp.Kind (Node.kind exParent) :: ys) =
        SExp.List (SExp.Kind (Node.kind exParent) :: ys) ∧
      ([SExp.List [SExp.Kind "a", SExp.List [SExp.Kind "b", SExp.Value [120]]]] :
          List SExp) =
        fieldPre exParent ++ [SExp.List (SExp.Kind (Node.kind exParent) :: ys)] :=
  named_node_entry_is_list [120] exParent
    [SExp.List [SExp.Kind "a", SExp.List [SExp.Kind "b", SExp.Value [120]]]] rfl rfl

/-- C5 counterexample: descending into an UNNAMED internal node still
increments the pretty printer's indent level from 0 to 1 — the code
increments on every successful `goto_first_child`, not only on descents
into named nodes. -/
theorem dump_step_unnamed_descent_cex :
    Node.is_named exUnnamed = false ∧
    dump_step [] ⟨⟨exUnnamed, []⟩, false, 0, false, []⟩ =
      DumpOutcome.next ⟨⟨exChild, [⟨exUnnamed, []⟩]⟩, false, 1, false, []⟩ ∧
    (1 : Int) = 0 + 1 :=
  ⟨rfl, rfl, rfl⟩

/-- C5 amended: one iteration of the `dump_sexp` loop changes the indent
level by +1 exactly when the descent to a first child succeeds, by −1
exactly when the sibling move fails and the ascent to the parent succeeds,
and by 0 otherwise — in every case regardless of whether the current node
is named. -/
theorem dump_step_indent (source : List Nat) (s s2 : DumpState)
    (h : dump_step source s = DumpOutcome.next s2) :
    s2.indent_level = s.indent_level +
      (if s.visited_children then
        (if (goto_next_sibling s.cursor).isSome then 0 else -1)
      else
        (if (goto_first_child s.cursor).isSome then 1 else 0)) := by
  obtain ⟨⟨n, fs⟩, nn, il, visited, out⟩ := s
  unfold dump_step at h
  cases visited with
  | true =>
    simp only [goto_next_sibling, goto_parent] at h
    match fs with
    | [] =>
      simp only at h
      cases h
    | ⟨p, []⟩ :: fs2 =>
      simp only at h
      cases h
      simp [goto_next_sibling]
      omega
    | ⟨p, s1 :: ss⟩ :: fs2 =>
      simp only at h
      cases h
      simp [goto_next_sibling]
  | false =>
    obtain ⟨b, f, k, sb, eb, cs⟩ := n
    simp only [goto_first_child, Node.children] at h
    cases cs with
    | nil =>
      simp only at h
      cases hd : decodeSlice source (Node.mk b f k sb eb []).start_byte
          (Node.mk b f k sb eb []).end_byte with
      | none => rw [hd] at h; cases h
      | some v =>
        rw [hd] at h
        cases h
        simp [goto_first_child, Node.children]
    | cons ch rest =>
      simp only at h
      cases h
      simp [goto_first_child, Node.children]

theorem dump_step_indent_witness :
    (⟨⟨exChild, [⟨exUnnamed, []⟩]⟩, false, 1, false, []⟩ : DumpState).indent_level =
      (⟨⟨exUnnamed, []⟩, false, 0, false, []⟩ : DumpState).indent_level +
        (if (⟨⟨exUnnamed, []⟩, false, 0, false, []⟩ : DumpState).visited_children then
          (if (goto_next_sibling (⟨⟨exUnnamed, []⟩, false, 0, false, []⟩ :
              DumpState).cursor).isSome then 0 else -1)
        else
          (if (goto_first_child (⟨⟨exUnnamed, []⟩, false, 0, false, []⟩ :
              DumpState).cursor).isSome then 1 else 0)) :=
  dump_step_indent [] ⟨⟨exUnnamed, []⟩, false, 0, false, []⟩
    ⟨⟨exChild, [⟨exUnnamed, []⟩]⟩, false, 1, false, []⟩ rfl
